import Mathlib

/-!
Verification development for `src/features/spectral_features.py` of the
Magnolia repository.

The Python module is a thin wrapper around `scipy.signal.stft` /
`scipy.signal.istft` and a few numpy array operations.  The wrapper code is
embedded directly; the external numeric-library calls (`scipy.signal.stft`,
`scipy.signal.istft`, `np.abs`, `np.angle`, `np.unwrap`, `np.sqrt`,
`ndarray.min/max`, float division) are embedded by their exact mathematical
semantics over `ℝ`/`ℂ` (exact arithmetic standing in for IEEE floats; the one
place where IEEE special values are observable to the claims - division by
zero in `scale_spectrogram` - is modelled by an explicit value type `NpVal`
with IEEE division semantics).

Signals are length-tagged sequences (`Vec`), numpy 2-d arrays are
shape-tagged double sequences (`MatC`, `MatR`, `MatN`); entries outside the
declared shape are irrelevant and all array equalities are stated on the
declared index range, as numpy's `==`/`array_equal` would compare them.
-/

noncomputable section

open Finset Real

/-- Python `int(q)` on a rational: truncation toward zero. -/
def pyInt (q : ℚ) : ℤ := if 0 ≤ q then ⌊q⌋ else -⌊-q⌋

/-- A 1-d numpy array of complex (or real-valued complex) numbers:
a length together with the entries (entries beyond `len` are irrelevant). -/
structure Vec where
  len : ℕ
  val : ℕ → ℂ

/-- A 2-d numpy array of complex numbers: shape plus entries. -/
structure MatC where
  rows : ℕ
  cols : ℕ
  val : ℕ → ℕ → ℂ

/-- A 2-d numpy array of real numbers. -/
structure MatR where
  rows : ℕ
  cols : ℕ
  val : ℕ → ℕ → ℝ

/-- Result of a numpy floating-point operation: a finite real number or one
of the IEEE non-finite specials produced by division by zero. -/
inductive NpVal where
  | fin : ℝ → NpVal
  | nan : NpVal
  | inf : NpVal
  | ninf : NpVal

/-- A value is finite when it is `fin x` for some real `x`. -/
def NpVal.IsFinite : NpVal → Prop
  | .fin _ => True
  | _ => False

/-- The real value of a finite `NpVal` (junk `0` on the specials);
`ndarray.min`/`max` on an all-finite array reduce to min/max of these. -/
def NpVal.toReal : NpVal → ℝ
  | .fin x => x
  | _ => 0

/-- A 2-d numpy array of floating-point results. -/
structure MatN where
  rows : ℕ
  cols : ℕ
  val : ℕ → ℕ → NpVal

/-- numpy `ndarray.T` on a 2-d array. -/
def MatC.T (A : MatC) : MatC := ⟨A.cols, A.rows, fun i j => A.val j i⟩

/-- numpy true division `a / b` of finite reals with IEEE semantics:
finite quotient when `b ≠ 0`, otherwise `nan`/`inf`/`-inf` by the sign of
the numerator.  (Exact reals have a single zero, which is IEEE `+0`.) -/
def npDiv (a b : ℝ) : NpVal :=
  if b = 0 then (if a = 0 then NpVal.nan else if 0 < a then NpVal.inf else NpVal.ninf)
  else NpVal.fin (a / b)

/-- The multiset of entries of a real matrix, as a finset of values. -/
def MatR.entries (A : MatR) : Finset ℝ :=
  (Finset.range A.rows ×ˢ Finset.range A.cols).image fun p => A.val p.1 p.2

/-- numpy `ndarray.max()` (global maximum; junk `0` on an empty array,
where numpy raises). -/
def MatR.maxv (A : MatR) : ℝ :=
  if h : A.entries.Nonempty then A.entries.max' h else 0

/-- numpy `ndarray.min()` (global minimum; junk `0` on an empty array). -/
def MatR.minv (A : MatR) : ℝ :=
  if h : A.entries.Nonempty then A.entries.min' h else 0

/-- The phase correction `np.unwrap` adds for one consecutive difference `d`
(default `discont = π`, `period = 2π`): zero when `|d| < π`, otherwise
`ddmod - d` where `ddmod = mod(d + π, 2π) - π`, with `ddmod = -π` replaced
by `π` when `d > 0`. -/
def npUnwrapCorr (d : ℝ) : ℝ :=
  if |d| < π then 0
  else
    let md := (d + π) - 2 * π * ⌊(d + π) / (2 * π)⌋
    let dd := md - π
    (if dd = -π ∧ 0 < d then π else dd) - d

/-- `np.unwrap` along the last axis, one row at a time: entry `j` of the
unwrapped row is the original entry plus the cumulative sum of the
corrections of the `j` preceding consecutive differences. -/
def npUnwrapRow (p : ℕ → ℝ) (j : ℕ) : ℝ :=
  p j + ∑ i ∈ Finset.range j, npUnwrapCorr (p (i + 1) - p i)

/-- `scale_spectrogram(spectrogram)` from the source:
`mag_spec = np.abs(spectrogram)`, `phases = np.unwrap(np.angle(spectrogram))`,
`mag_spec = np.sqrt(mag_spec)`, `M = mag_spec.max()`, `m = mag_spec.min()`,
returns `((mag_spec - m)/(M - m), phases)`. -/
def scale_spectrogram (S : MatC) : MatN × MatR :=
  let mag : MatR := ⟨S.rows, S.cols, fun i j => Real.sqrt (Complex.abs (S.val i j))⟩
  let phases : MatR := ⟨S.rows, S.cols, fun i j => npUnwrapRow (fun t => Complex.arg (S.val i t)) j⟩
  let M := mag.maxv
  let m := mag.minv
  (⟨S.rows, S.cols, fun i j => npDiv (mag.val i j - m) (M - m)⟩, phases)

/-- Periodic (`fftbins=True`) Hann window of length `N` at index `n`, as
`scipy.signal.get_window('hann', N)` produces it. -/
def hannW (N n : ℕ) : ℝ := (1 - Real.cos (2 * π * n / N)) / 2

/-- `win.sum()` for the periodic Hann window of length `N`. -/
def hannSum (N : ℕ) : ℝ := ∑ n ∈ Finset.range N, hannW N n

/-- The `m`-point discrete Fourier transform of `v` at frequency `f`
(numpy/scipy `fft` convention, no normalization). -/
def dft (m : ℕ) (v : ℕ → ℂ) (f : ℕ) : ℂ :=
  ∑ n ∈ Finset.range m, v n * Complex.exp (-(2 * π * Complex.I) * f * n / m)

/-- The `m`-point inverse discrete Fourier transform of `v` at time `j`
(numpy/scipy `ifft` convention, `1/m` normalization). -/
def idft (m : ℕ) (v : ℕ → ℂ) (j : ℕ) : ℂ :=
  (∑ f ∈ Finset.range m, v f * Complex.exp (2 * π * Complex.I * f * j / m)) / m

/-- The input signal extended by `p` zeros on the left (scipy's
`boundary='zeros'` extension) and by zeros on the right (the right half of
the boundary extension together with `padded=True` zero padding). -/
def sigExt (x : Vec) (p n : ℕ) : ℂ :=
  if n < p then 0 else if n - p < x.len then x.val (n - p) else 0

/-- `scipy.signal._triage_segments`: `nperseg` is clamped to the input
length (scipy warns and shrinks when `nperseg` exceeds it). -/
def stftNperseg (l N : ℕ) : ℕ := min N l

/-- Number of STFT frames over an extended-and-padded signal of length `l`
with frame length `N` and step `H` (`padded=True`: `nadd` zeros are appended
so that an integer number of frames covers the signal). -/
def numFrames (l N H : ℕ) : ℕ :=
  let nadd := (H - (l - N) % H) % H
  (l + nadd - N) / H + 1

/-- Frame `t` of the Hann-windowed signal, zero-extended past the window
length (the zero padding the FFT applies when `nfft > nperseg`). -/
def stftFrame (x : Vec) (p N H t n : ℕ) : ℂ :=
  if n < N then (hannW N n : ℝ) * sigExt x p (t * H + n) else 0

/-- Model of `scipy.signal.stft(x, fs, window='hann', nperseg, noverlap,
nfft, return_onesided, boundary='zeros', padded=True)` (frequency-major
output, `scaling='spectrum'` so each spectrum is divided by `win.sum()`).
Faithful on scipy's non-raising domain `1 ≤ x.len`,
`0 ≤ noverlap < min nperseg x.len ≤ nfft`, for real-valued audio signals
(scipy silently switches complex input to two-sided output); outside that
domain scipy raises `ValueError` and the values here are junk. -/
def scipyStft (x : Vec) (nperseg noverlap : ℤ) (nfft : Option ℤ) (onesided : Bool) : MatC :=
  let N := stftNperseg x.len nperseg.toNat
  let V := noverlap.toNat
  let H := N - V
  let m := (nfft.map Int.toNat).getD N
  let p := N / 2
  let L := x.len + 2 * p
  let k := numFrames L N H
  let bins := if onesided then m / 2 + 1 else m
  ⟨bins, k, fun f t => dft m (stftFrame x p N H t) f / (hannSum N : ℝ)⟩

/-- `stft(x, fs, framesz, hop, two_sided, fft_size)` from the source:
`framesamp = int(framesz*fs)`, `hopsamp = int(hop*fs)`,
`overlap_samp = framesamp - hopsamp`, then
`scipy.signal.stft(x, fs, window='hann', nperseg=framesamp,
noverlap=overlap_samp, nfft=fft_size, return_onesided=not two_sided)`
and the transpose `X.T` is returned (time-major). -/
def stft (x : Vec) (fs framesz hop : ℚ) (two_sided : Bool) (fft_size : Option ℤ) : MatC :=
  let framesamp := pyInt (framesz * fs)
  let hopsamp := pyInt (hop * fs)
  let overlap_samp := framesamp - hopsamp
  (scipyStft x framesamp overlap_samp fft_size (!two_sided)).T

/-- Hermitian extension of a one-sided spectrum row of length `bins` to a
full spectrum of length `m` (what `np.fft.irfft` does with its input). -/
def hermExt (bins m : ℕ) (row : ℕ → ℂ) (f : ℕ) : ℂ :=
  if f < bins then row f else (starRingEnd ℂ) (row (m - f))

/-- One inverse-transformed frame of `scipy.signal.istft`:
`ifft(Z[:, t], n=nfft)[:nperseg] * win.sum()` (two-sided input) or
`irfft(Z[:, t], n=nfft)[:nperseg] * win.sum()` (one-sided input; `irfft`
Hermitian-extends and its output is real). `Z` is frequency-major. -/
def istftXsub (Z : MatC) (N m : ℕ) (onesided : Bool) (t n : ℕ) : ℂ :=
  if onesided then
    (hannSum N : ℝ) * ((idft m (hermExt Z.rows m (fun f => Z.val f t)) n).re : ℝ)
  else (hannSum N : ℝ) * idft m (fun f => Z.val f t) n

/-- The window-square overlap-add normalization buffer of `scipy.signal.istft`
at output position `mm`: `norm[ii*nstep : ii*nstep+nperseg] += win**2`. -/
def olaNorm (N H k mm : ℕ) : ℝ :=
  ∑ t ∈ Finset.range k, if t * H ≤ mm ∧ mm < t * H + N then (hannW N (mm - t * H)) ^ 2 else 0

/-- The overlap-add accumulation buffer of `scipy.signal.istft` at output
position `mm`: `x[ii*nstep : ii*nstep+nperseg] += xsubs * win`. -/
def olaNum (Z : MatC) (N m H k : ℕ) (onesided : Bool) (mm : ℕ) : ℂ :=
  ∑ t ∈ Finset.range k,
    if t * H ≤ mm ∧ mm < t * H + N then
      (hannW N (mm - t * H) : ℝ) * istftXsub Z N m onesided t (mm - t * H)
    else 0

/-- Model of `scipy.signal.istft(Z, window='hann', nperseg, noverlap, nfft,
input_onesided, boundary=True)` on a frequency-major spectrogram `Z`:
overlap-add of the inverse-transformed windowed frames, pointwise division
by the window-square normalization where it exceeds `1e-10`, then trimming
`nperseg//2` samples from both ends (the Python slice
`x[nperseg//2 : -(nperseg//2)]`, which is empty when `nperseg//2 == 0`).
Faithful on scipy's non-raising domain `0 ≤ noverlap < nperseg ≤ nfft` with
`Z.cols` frames. -/
def scipyIstft (Z : MatC) (nperseg noverlap : ℤ) (nfft : Option ℤ) (onesided : Bool) : Vec :=
  let N := nperseg.toNat
  let V := noverlap.toNat
  let H := N - V
  let m := (nfft.map Int.toNat).getD N
  let k := Z.cols
  let p := N / 2
  let raw : ℕ → ℂ := fun mm =>
    if olaNorm N H k mm > 1 / 10 ^ 10 then olaNum Z N m H k onesided mm / (olaNorm N H k mm : ℝ)
    else olaNum Z N m H k onesided mm
  ⟨if p = 0 then 0 else N + (k - 1) * H - 2 * p, fun i => raw (i + p)⟩

/-- The warning message `istft` logs when the deprecated `recon_size`
parameter does not match the reconstruction length (it names both values). -/
def reconWarning (n : ℕ) (r : ℤ) : String :=
  "Size of reconstruction (" ++ toString n ++ ") does not match value of " ++
    "deprecated recon_size parameter (" ++ toString r ++ ")."

/-- `istft(X, fs, recon_size, hop, two_sided, fft_size)` from the source:
`framesamp = X.shape[1]` if two-sided else `2*(X.shape[1] - 1)`,
`hopsamp = int(hop*fs)`, `overlap_samp = framesamp - hopsamp`, then
`scipy.signal.istft(X.T, fs, window='hann', nperseg=framesamp,
nfft=fft_size, noverlap=overlap_samp, input_onesided=not two_sided)`;
a warning (second component) is logged iff `recon_size` is not `None` and
differs from the length of the reconstruction, which is returned as is. -/
def istft (X : MatC) (fs : ℚ) (recon_size : Option ℤ) (hop : ℚ) (two_sided : Bool)
    (fft_size : Option ℤ) : Vec × Option String :=
  let framesamp : ℤ := if two_sided then (X.cols : ℤ) else 2 * ((X.cols : ℤ) - 1)
  let hopsamp := pyInt (hop * fs)
  let overlap_samp := framesamp - hopsamp
  let x := scipyIstft X.T framesamp overlap_samp fft_size (!two_sided)
  (x,
    match recon_size with
    | none => none
    | some r => if r ≠ (x.len : ℤ) then some (reconWarning x.len r) else none)

/-- The square-root-compressed magnitude array of a spectrogram (the claim
formula's `sqrt(magnitude)`, whose global min and max drive the rescaling). -/
def sqrtMag (S : MatC) : MatR :=
  ⟨S.rows, S.cols, fun i j => Real.sqrt (Complex.abs (S.val i j))⟩

/-- The real values of an (all-finite) floating-point result matrix. -/
def MatN.toR (A : MatN) : MatR := ⟨A.rows, A.cols, fun i j => (A.val i j).toReal⟩

/-- Scalar multiplication of a spectrogram by a real factor. -/
def matScale (c : ℝ) (S : MatC) : MatC := ⟨S.rows, S.cols, fun i j => (c : ℂ) * S.val i j⟩

/-! ### Core lemmas about the transform machinery -/

theorem pyInt_floor (q : ℚ) (h : 0 ≤ q) : pyInt q = ⌊q⌋ := by
  unfold pyInt
  rw [if_pos h]

theorem int_dvd_small {m d : ℤ} (h1 : -m < d) (h2 : d < m) (hd : m ∣ d) : d = 0 := by
  obtain ⟨c, rfl⟩ := hd
  have hm : 0 < m := by nlinarith
  rcases lt_trichotomy c 0 with hc | hc | hc
  · nlinarith
  · simp [hc]
  · nlinarith

theorem expSum (m : ℕ) (hm : 0 < m) (d : ℤ) :
    ∑ f ∈ Finset.range m, Complex.exp (2 * π * Complex.I * f * (d : ℂ) / m) =
      if (m : ℤ) ∣ d then (m : ℂ) else 0 := by
  have hmC : (m : ℂ) ≠ 0 := Nat.cast_ne_zero.2 hm.ne'
  have hconv : ∀ f : ℕ, Complex.exp (2 * π * Complex.I * f * (d : ℂ) / m)
      = Complex.exp (2 * π * Complex.I * (d : ℂ) / m) ^ f := by
    intro f
    rw [← Complex.exp_nat_mul]
    congr 1
    ring
  simp only [hconv]
  by_cases hdvd : (m : ℤ) ∣ d
  · obtain ⟨e, rfl⟩ := hdvd
    have hz : Complex.exp (2 * π * Complex.I * ((m : ℤ) * e : ℤ) / m) = 1 := by
      have harg : 2 * π * Complex.I * (((m : ℤ) * e : ℤ) : ℂ) / m = (e : ℂ) * (2 * π * Complex.I) := by
        push_cast
        field_simp
        ring
      rw [harg, Complex.exp_int_mul_two_pi_mul_I]
    rw [hz, if_pos ⟨e, rfl⟩]
    simp
  · have hz : Complex.exp (2 * π * Complex.I * (d : ℂ) / m) ≠ 1 := by
      intro h
      obtain ⟨n, hn⟩ := Complex.exp_eq_one_iff.1 h
      have h2πI : (2 * π * Complex.I : ℂ) ≠ 0 := by
        refine mul_ne_zero (mul_ne_zero two_ne_zero ?_) Complex.I_ne_zero
        exact Complex.ofReal_ne_zero.2 Real.pi_ne_zero
      have hd' : (d : ℂ) = (n : ℂ) * m := by
        have h1 : 2 * (π : ℂ) * Complex.I * (d : ℂ) =
            2 * (π : ℂ) * Complex.I * ((n : ℂ) * (m : ℂ)) := by
          field_simp at hn
          linear_combination hn
        exact mul_left_cancel₀ h2πI h1
      have : d = n * m := by exact_mod_cast hd'
      exact hdvd ⟨n, by rw [this]; ring⟩
    rw [if_neg hdvd, geom_sum_eq hz]
    have hzm : Complex.exp (2 * π * Complex.I * (d : ℂ) / m) ^ m = 1 := by
      rw [← Complex.exp_nat_mul]
      have harg : (m : ℂ) * (2 * π * Complex.I * (d : ℂ) / m) = (d : ℂ) * (2 * π * Complex.I) := by
        field_simp
        ring
      rw [harg, Complex.exp_int_mul_two_pi_mul_I]
    rw [hzm]
    simp

theorem idft_dft (m : ℕ) (hm : 0 < m) (v : ℕ → ℂ) (j : ℕ) (hj : j < m) :
    idft m (dft m v) j = v j := by
  have hmC : (m : ℂ) ≠ 0 := Nat.cast_ne_zero.2 hm.ne'
  unfold idft dft
  have hswap :
      ∑ f ∈ Finset.range m, (∑ n ∈ Finset.range m,
          v n * Complex.exp (-(2 * π * Complex.I) * f * n / m)) *
        Complex.exp (2 * π * Complex.I * f * j / m) =
      ∑ n ∈ Finset.range m, v n *
        ∑ f ∈ Finset.range m, Complex.exp (2 * π * Complex.I * f * ((j : ℤ) - (n : ℤ) : ℤ) / m) := by
    simp only [Finset.sum_mul]
    rw [Finset.sum_comm]
    refine Finset.sum_congr rfl fun n _ => ?_
    rw [Finset.mul_sum]
    refine Finset.sum_congr rfl fun f _ => ?_
    rw [mul_assoc]
    congr 1
    rw [← Complex.exp_add]
    congr 1
    push_cast
    field_simp
    ring
  rw [hswap]
  have hsum : ∀ n ∈ Finset.range m,
      v n * ∑ f ∈ Finset.range m,
          Complex.exp (2 * π * Complex.I * f * ((j : ℤ) - (n : ℤ) : ℤ) / m) =
        if n = j then v n * m else 0 := by
    intro n hn
    rw [expSum m hm]
    by_cases hnj : n = j
    · subst hnj
      simp
    · rw [if_neg ?_, if_neg hnj, mul_zero]
      intro hdvd
      have hn' : n < m := Finset.mem_range.1 hn
      have : (j : ℤ) - (n : ℤ) = 0 := int_dvd_small (by omega) (by omega) hdvd
      omega
  rw [Finset.sum_congr rfl hsum, Finset.sum_ite_eq' (Finset.range m) j (fun n => v n * m),
    if_pos (Finset.mem_range.2 hj), mul_div_assoc, div_self hmC, mul_one]

theorem idft_congr (m : ℕ) (v w : ℕ → ℂ) (h : ∀ f, f < m → v f = w f) (j : ℕ) :
    idft m v j = idft m w j := by
  unfold idft
  congr 1
  exact Finset.sum_congr rfl fun f hf => by rw [h f (Finset.mem_range.1 hf)]

theorem idft_div (m : ℕ) (v : ℕ → ℂ) (c : ℂ) (j : ℕ) :
    idft m (fun f => v f / c) j = idft m v j / c := by
  unfold idft
  simp only [div_mul_eq_mul_div]
  rw [← Finset.sum_div, div_right_comm]

theorem hannW_nonneg (N n : ℕ) : 0 ≤ hannW N n := by
  unfold hannW
  have := Real.cos_le_one (2 * π * n / N)
  linarith

theorem hannSum_pos (N : ℕ) (hN : 2 ≤ N) : 0 < hannSum N := by
  have hNR : (0 : ℝ) < N := by exact_mod_cast (by omega : 0 < N)
  unfold hannSum
  refine Finset.sum_pos' (fun n _ => hannW_nonneg N n) ⟨1, Finset.mem_range.2 (by omega), ?_⟩
  unfold hannW
  have hx0 : 0 < 2 * π * (1 : ℕ) / N := by
    apply div_pos _ hNR
    simp [Real.pi_pos]
  have hN2 : (2 : ℝ) ≤ N := by exact_mod_cast hN
  have hxlt : 2 * π * (1 : ℕ) / N < 2 * π := by
    rw [div_lt_iff₀ hNR]
    push_cast
    nlinarith [Real.pi_pos]
  have hne : Real.cos (2 * π * (1 : ℕ) / N) ≠ 1 := by
    intro h
    have := (Real.cos_eq_one_iff_of_lt_of_lt (by linarith) hxlt).1 h
    exact absurd this (ne_of_gt hx0)
  have hlt : Real.cos (2 * π * (1 : ℕ) / N) < 1 :=
    lt_of_le_of_ne (Real.cos_le_one _) hne
  linarith

theorem dft_conj (m : ℕ) (v : ℕ → ℂ) (hv : ∀ n, (v n).im = 0) (f : ℕ) (hf : f ≤ m) :
    (starRingEnd ℂ) (dft m v (m - f)) = dft m v f := by
  rcases Nat.eq_zero_or_pos m with hm | hm
  · subst hm
    simp [dft]
  have hmC : (m : ℂ) ≠ 0 := Nat.cast_ne_zero.2 hm.ne'
  unfold dft
  rw [map_sum]
  refine Finset.sum_congr rfl fun n hn => ?_
  rw [map_mul, Complex.conj_eq_iff_im.2 (hv n)]
  congr 1
  rw [← Complex.exp_conj]
  have hconjarg : (starRingEnd ℂ) (-(2 * π * Complex.I) * (m - f : ℕ) * n / m) =
      2 * π * Complex.I * (m - f : ℕ) * n / m := by
    simp only [map_div₀, map_mul, map_neg, Complex.conj_ofReal, Complex.conj_I, map_natCast,
      map_ofNat]
    ring
  rw [hconjarg]
  rw [Complex.exp_eq_exp_iff_exists_int]
  refine ⟨n, ?_⟩
  have hcast : ((m - f : ℕ) : ℂ) = (m : ℂ) - (f : ℂ) := by
    push_cast [Nat.cast_sub hf]
    ring
  rw [hcast]
  field_simp
  ring

theorem sigExt_im (x : Vec) (hx : ∀ n, n < x.len → (x.val n).im = 0) (p n : ℕ) :
    (sigExt x p n).im = 0 := by
  unfold sigExt
  split_ifs with h1 h2
  · simp
  · exact hx _ h2
  · simp

theorem stftFrame_im (x : Vec) (hx : ∀ n, n < x.len → (x.val n).im = 0) (p N H t n : ℕ) :
    (stftFrame x p N H t n).im = 0 := by
  unfold stftFrame
  split_ifs with h1
  · simp [Complex.mul_im, sigExt_im x hx]
  · simp

theorem istftXsub_twosided (x : Vec) (p N H : ℕ) (hN : 2 ≤ N) (Z : MatC)
    (hZ : ∀ f t, Z.val f t = dft N (stftFrame x p N H t) f / (hannSum N : ℝ))
    (t j : ℕ) (hj : j < N) :
    istftXsub Z N N false t j = stftFrame x p N H t j := by
  have hwsC : ((hannSum N : ℝ) : ℂ) ≠ 0 :=
    Complex.ofReal_ne_zero.2 (ne_of_gt (hannSum_pos N hN))
  unfold istftXsub
  rw [if_neg (by simp)]
  rw [idft_congr N _ (fun f => dft N (stftFrame x p N H t) f / (hannSum N : ℝ))
    (fun f _ => hZ f t) j]
  rw [idft_div, idft_dft N (by omega) _ j hj, mul_comm, div_mul_cancel₀ _ hwsC]

theorem istftXsub_onesided (x : Vec) (p N H : ℕ) (hN : 2 ≤ N)
    (hx : ∀ n, n < x.len → (x.val n).im = 0) (Z : MatC)
    (hZ : ∀ f t, Z.val f t = dft N (stftFrame x p N H t) f / (hannSum N : ℝ))
    (t j : ℕ) (hj : j < N) :
    istftXsub Z N N true t j = stftFrame x p N H t j := by
  have hws : (hannSum N : ℝ) ≠ 0 := ne_of_gt (hannSum_pos N hN)
  unfold istftXsub
  rw [if_pos rfl]
  have hherm : ∀ f, f < N → hermExt Z.rows N (fun g => Z.val g t) f =
      dft N (stftFrame x p N H t) f / (hannSum N : ℝ) := by
    intro f hf
    unfold hermExt
    by_cases hfb : f < Z.rows
    · rw [if_pos hfb]
      exact hZ f t
    · rw [if_neg hfb]
      show (starRingEnd ℂ) (Z.val (N - f) t) = _
      rw [hZ, map_div₀, Complex.conj_ofReal,
        dft_conj N _ (fun n => stftFrame_im x hx p N H t n) f hf.le]
  rw [idft_congr N _ _ hherm j, idft_div, idft_dft N (by omega) _ j hj,
    Complex.div_ofReal_re]
  rw [Complex.ofReal_div, mul_div_cancel₀ _ (Complex.ofReal_ne_zero.2 hws)]
  apply Complex.ext
  · simp
  · simp [stftFrame_im x hx]

theorem olaNum_eq (x : Vec) (p N H k : ℕ) (os : Bool) (Z : MatC)
    (hxs : ∀ t j, j < N → istftXsub Z N N os t j = stftFrame x p N H t j) (mm : ℕ) :
    olaNum Z N N H k os mm = ((olaNorm N H k mm : ℝ) : ℂ) * sigExt x p mm := by
  unfold olaNum olaNorm
  rw [Complex.ofReal_sum, Finset.sum_mul]
  refine Finset.sum_congr rfl fun t ht => ?_
  by_cases hcond : t * H ≤ mm ∧ mm < t * H + N
  · rw [if_pos hcond, hxs t (mm - t * H) (by omega)]
    rw [apply_ite (fun r : ℝ => (r : ℂ)), if_pos hcond]
    unfold stftFrame
    rw [if_pos (by omega : mm - t * H < N), show t * H + (mm - t * H) = mm from by omega]
    push_cast
    ring
  · rw [if_neg hcond, apply_ite (fun r : ℝ => (r : ℂ)), if_neg hcond]
    simp

theorem numFrames_cover (L N H : ℕ) (hH : 0 < H) (hNL : N ≤ L) :
    N + (numFrames L N H - 1) * H = L + (H - (L - N) % H) % H := by
  have hq := Nat.div_add_mod (L - N) H
  have hdvd : H ∣ (L - N + (H - (L - N) % H) % H) := by
    rcases Nat.eq_zero_or_pos ((L - N) % H) with h0 | hpos
    · rw [h0]
      simp [Nat.dvd_of_mod_eq_zero h0]
    · have hlt : (L - N) % H < H := Nat.mod_lt _ hH
      rw [Nat.mod_eq_of_lt (by omega : H - (L - N) % H < H)]
      refine ⟨(L - N) / H + 1, ?_⟩
      rw [Nat.mul_add, Nat.mul_one]
      omega
  unfold numFrames
  have h1 : L + (H - (L - N) % H) % H - N = L - N + (H - (L - N) % H) % H := by omega
  rw [Nat.add_sub_cancel, h1, Nat.div_mul_cancel hdvd]
  omega

theorem hannW_two_zero : hannW 2 0 = 0 := by
  unfold hannW
  norm_num

theorem hannW_two_one : hannW 2 1 = 1 := by
  unfold hannW
  rw [show 2 * π * ((1 : ℕ) : ℝ) / ((2 : ℕ) : ℝ) = π from by push_cast; ring, Real.cos_pi]
  norm_num

theorem hannW_four_zero : hannW 4 0 = 0 := by
  unfold hannW
  norm_num

theorem hannW_four_one : hannW 4 1 = 1 / 2 := by
  unfold hannW
  rw [show 2 * π * ((1 : ℕ) : ℝ) / ((4 : ℕ) : ℝ) = π / 2 from by push_cast; ring,
    Real.cos_pi_div_two]
  norm_num

theorem hannW_four_two : hannW 4 2 = 1 := by
  unfold hannW
  rw [show 2 * π * ((2 : ℕ) : ℝ) / ((4 : ℕ) : ℝ) = π from by push_cast; ring, Real.cos_pi]
  norm_num

theorem hannW_four_three : hannW 4 3 = 1 / 2 := by
  unfold hannW
  rw [show 2 * π * ((3 : ℕ) : ℝ) / ((4 : ℕ) : ℝ) = π + π / 2 from by push_cast; ring,
    Real.cos_add, Real.cos_pi, Real.sin_pi, Real.cos_pi_div_two, Real.sin_pi_div_two]
  norm_num

theorem hannSum_two : hannSum 2 = 1 := by
  unfold hannSum
  rw [Finset.sum_range_succ, Finset.sum_range_succ, Finset.sum_range_zero,
    hannW_two_zero, hannW_two_one]
  norm_num

theorem hannSum_four : hannSum 4 = 2 := by
  unfold hannSum
  rw [Finset.sum_range_succ, Finset.sum_range_succ, Finset.sum_range_succ,
    Finset.sum_range_succ, Finset.sum_range_zero,
    hannW_four_zero, hannW_four_one, hannW_four_two, hannW_four_three]
  norm_num

theorem istftXsub_mismatch (x : Vec) (p N H m : ℕ) (hm : 0 < m) (Np : ℕ) (Z : MatC)
    (hZ : ∀ f t, Z.val f t = dft m (stftFrame x p N H t) f / (hannSum N : ℝ))
    (t n : ℕ) (hn : n < m) :
    istftXsub Z Np m false t n =
      (hannSum Np : ℝ) * (stftFrame x p N H t n / (hannSum N : ℝ)) := by
  unfold istftXsub
  rw [if_neg (by simp)]
  rw [idft_congr m _ (fun f => dft m (stftFrame x p N H t) f / (hannSum N : ℝ))
    (fun f _ => hZ f t) n, idft_div, idft_dft m hm _ n hn]

theorem sigExt_at (x : Vec) (p i : ℕ) (hi : i < x.len) : sigExt x p (i + p) = x.val i := by
  unfold sigExt
  rw [if_neg (by omega : ¬ i + p < p), show i + p - p = i from by omega, if_pos hi]

theorem scipyIstft_exact (x : Vec) (N hs binsv : ℕ) (nov : ℤ) (fftm : Option ℤ) (os : Bool)
    (i : ℕ) (hN2 : 2 ≤ N) (hs1 : 1 ≤ hs) (hsN : hs ≤ N)
    (hnov : nov.toNat = N - hs)
    (hfftm : (fftm.map Int.toNat).getD N = N)
    (hreal : os = true → ∀ n, n < x.len → (x.val n).im = 0)
    (hi : i < x.len)
    (hnola : 1 / 10 ^ 10 < olaNorm N hs (numFrames (x.len + 2 * (N / 2)) N hs) (i + N / 2)) :
    x.len ≤ (scipyIstft ⟨binsv, numFrames (x.len + 2 * (N / 2)) N hs,
        fun f t => dft N (stftFrame x (N / 2) N hs t) f / (hannSum N : ℝ)⟩
        (N : ℤ) nov fftm os).len ∧
      (scipyIstft ⟨binsv, numFrames (x.len + 2 * (N / 2)) N hs,
        fun f t => dft N (stftFrame x (N / 2) N hs t) f / (hannSum N : ℝ)⟩
        (N : ℤ) nov fftm os).val i = x.val i := by
  have hp1 : 1 ≤ N / 2 := by omega
  have htoN : (N : ℤ).toNat = N := by omega
  have hnorm0 : (0 : ℝ) < olaNorm N hs (numFrames (x.len + 2 * (N / 2)) N hs) (i + N / 2) :=
    lt_trans (by positivity) hnola
  simp only [scipyIstft, htoN, hnov, show N - (N - hs) = hs from by omega, hfftm]
  constructor
  · rw [if_neg (by omega : ¬ N / 2 = 0)]
    have hcov := numFrames_cover (x.len + 2 * (N / 2)) N hs (by omega) (by omega)
    omega
  · rw [if_pos hnola]
    have hxs : ∀ t j, j < N →
        istftXsub ⟨binsv, numFrames (x.len + 2 * (N / 2)) N hs,
          fun f t => dft N (stftFrame x (N / 2) N hs t) f / (hannSum N : ℝ)⟩ N N os t j =
          stftFrame x (N / 2) N hs t j := by
      intro t j hj
      cases os
      · exact istftXsub_twosided x (N / 2) N hs hN2 _ (fun f t => rfl) t j hj
      · exact istftXsub_onesided x (N / 2) N hs hN2 (hreal rfl) _ (fun f t => rfl) t j hj
    rw [olaNum_eq x (N / 2) N hs (numFrames (x.len + 2 * (N / 2)) N hs) os _ hxs (i + N / 2)]
    rw [mul_div_assoc, mul_comm, div_mul_cancel₀ _ (Complex.ofReal_ne_zero.2 (ne_of_gt hnorm0))]
    exact sigExt_at x (N / 2) i hi

/-- C1 (amended): for a real signal at least one frame long, with
`2 ≤ framesamp`, `1 ≤ hopsamp ≤ framesamp`, the FFT size left at its
default (`None`) or equal to `framesamp`, and - in one-sided mode - an even
`framesamp`, `istft ∘ stft` with identical sample rate, hop, two-sided flag
and FFT size reproduces the original signal exactly at every sample index
where the overlap-added squared Hann window exceeds the library's `1e-10`
threshold (in particular the reconstruction is at least as long as the
input). -/
theorem C1_roundtrip (x : Vec) (fs framesz hop : ℚ) (ts : Bool) (fft rs : Option ℤ) (i : ℕ)
    (hF : 2 ≤ pyInt (framesz * fs)) (hhs : 1 ≤ pyInt (hop * fs))
    (hhsF : pyInt (hop * fs) ≤ pyInt (framesz * fs))
    (hlen : (pyInt (framesz * fs)).toNat ≤ x.len)
    (hfft : fft = none ∨ fft = some (pyInt (framesz * fs)))
    (hts : ts = false → (pyInt (framesz * fs)).toNat % 2 = 0)
    (hreal : ∀ n, n < x.len → (x.val n).im = 0)
    (hi : i < x.len)
    (hnola : 1 / 10 ^ 10 < olaNorm (pyInt (framesz * fs)).toNat (pyInt (hop * fs)).toNat
        (numFrames (x.len + 2 * ((pyInt (framesz * fs)).toNat / 2)) (pyInt (framesz * fs)).toNat
          (pyInt (hop * fs)).toNat)
        (i + (pyInt (framesz * fs)).toNat / 2)) :
    x.len ≤ (istft (stft x fs framesz hop ts fft) fs rs hop ts fft).1.len ∧
      (istft (stft x fs framesz hop ts fft) fs rs hop ts fft).1.val i = x.val i := by
  set F := pyInt (framesz * fs) with hFdef
  set hsz := pyInt (hop * fs) with hszdef
  set N := F.toNat with hNdef
  set hs : ℕ := hsz.toNat with hsdef
  have hN2 : 2 ≤ N := by omega
  have hs1 : 1 ≤ hs := by omega
  have hsN : hs ≤ N := by omega
  have hgetD : (fft.map Int.toNat).getD N = N := by
    rcases hfft with h | h
    · rw [h]; rfl
    · rw [h]; rfl
  have hA : scipyStft x F (F - hsz) fft (!ts) =
      ⟨if (!ts) = true then N / 2 + 1 else N, numFrames (x.len + 2 * (N / 2)) N hs,
        fun f t => dft N (stftFrame x (N / 2) N hs t) f / (hannSum N : ℝ)⟩ := by
    simp only [scipyStft]
    rw [show stftNperseg x.len F.toNat = N from by unfold stftNperseg; omega]
    rw [show (F - hsz).toNat = N - hs from by omega]
    rw [show N - (N - hs) = hs from by omega]
    rw [hgetD]
  have hstft : stft x fs framesz hop ts fft =
      MatC.T ⟨if (!ts) = true then N / 2 + 1 else N, numFrames (x.len + 2 * (N / 2)) N hs,
        fun f t => dft N (stftFrame x (N / 2) N hs t) f / (hannSum N : ℝ)⟩ := by
    simp only [stft]
    rw [hA]
  rw [hstft]
  simp only [istft, MatC.T]
  have hfrm : (if ts = true
        then ((if (!ts) = true then N / 2 + 1 else N : ℕ) : ℤ)
        else 2 * (((if (!ts) = true then N / 2 + 1 else N : ℕ) : ℤ) - 1)) = (N : ℤ) := by
    cases ts
    · have hev := hts rfl
      simp only [Bool.not_false, if_pos rfl, if_neg (by simp : ¬ false = true)]
      push_cast
      omega
    · simp
  rw [hfrm]
  exact scipyIstft_exact x N hs _ ((N : ℤ) - hsz) fft (!ts) i hN2 hs1 hsN (by omega) hgetD
    (fun _ => hreal) hi hnola

/-- Witness for C1: two samples of a 440 Hz sinusoid at a (rescaled) unit
sample rate, frame of 2 samples, hop of 1 sample, two-sided, default FFT
size: the first sample is reconstructed exactly. -/
theorem C1_roundtrip_witness :
    (2 : ℕ) ≤ (istft (stft ⟨2, fun n => ((Real.sin (2 * π * 440 * n / 16000) : ℝ) : ℂ)⟩
        1 2 1 true none) 1 none 1 true none).1.len ∧
      (istft (stft ⟨2, fun n => ((Real.sin (2 * π * 440 * n / 16000) : ℝ) : ℂ)⟩
        1 2 1 true none) 1 none 1 true none).1.val 0 =
        ((Real.sin (2 * π * 440 * (0 : ℕ) / 16000) : ℝ) : ℂ) := by
  have hpy2 : pyInt ((2 : ℚ) * 1) = 2 := by norm_num [pyInt]
  have hpy1 : pyInt ((1 : ℚ) * 1) = 1 := by norm_num [pyInt]
  have h := C1_roundtrip ⟨2, fun n => ((Real.sin (2 * π * 440 * n / 16000) : ℝ) : ℂ)⟩ 1 2 1
    true none none 0
    (by rw [hpy2]) (by rw [hpy1]) (by rw [hpy1, hpy2]; norm_num)
    (by rw [hpy2]; norm_num)
    (Or.inl rfl) (by intro h; cases h)
    (by intro n _; exact Complex.ofReal_im _) (by norm_num)
    (by
      rw [hpy2, hpy1]
      show (1 : ℝ) / 10 ^ 10 < olaNorm 2 1 3 1
      have hw1 : hannW 2 1 = 1 := by
        unfold hannW
        rw [show 2 * π * ((1 : ℕ) : ℝ) / ((2 : ℕ) : ℝ) = π from by push_cast; ring, Real.cos_pi]
        norm_num
      have hw0 : hannW 2 0 = 0 := by
        unfold hannW
        norm_num
      unfold olaNorm
      rw [Finset.sum_range_succ, Finset.sum_range_succ, Finset.sum_range_succ,
        Finset.sum_range_zero]
      rw [if_pos (by omega : 0 * 1 ≤ 1 ∧ 1 < 0 * 1 + 2),
        if_pos (by omega : 1 * 1 ≤ 1 ∧ 1 < 1 * 1 + 2),
        if_neg (by omega : ¬(2 * 1 ≤ 1 ∧ 1 < 2 * 1 + 2))]
      rw [show 1 - 0 * 1 = 1 from rfl, show 1 - 1 * 1 = 0 from rfl, hw0, hw1]
      norm_num)
  exact ⟨h.1, h.2⟩

/-- Counterexample for C1 as frozen: with a valid hop (1 sample) not
exceeding the frame (2 samples) and an explicit FFT size (4) passed
identically to both `stft` and `istft` (the spec allows any FFT size at
least the frame sample count), the round trip fails at the interior sample
index 2 of a constant-one signal of 6 samples: `istft` re-derives the frame
length from the spectrogram's bin count (4), windows with the wrong Hann
window and normalizes by the wrong overlap sum, so the sample comes back as
`2/3` instead of `1`. -/
theorem C1_counterexample :
    (istft (stft ⟨6, fun _ => 1⟩ 1 2 1 true (some 4)) 1 none 1 true (some 4)).1.val 2 ≠
      (⟨6, fun _ => (1 : ℂ)⟩ : Vec).val 2 := by
  have hpy2 : pyInt ((2 : ℚ) * 1) = 2 := by norm_num [pyInt]
  have hpy1 : pyInt ((1 : ℚ) * 1) = 1 := by norm_num [pyInt]
  have hstft : stft ⟨6, fun _ => 1⟩ 1 2 1 true (some 4) =
      MatC.T ⟨4, 7, fun f t => dft 4 (stftFrame ⟨6, fun _ => 1⟩ 1 2 1 t) f / (hannSum 2 : ℝ)⟩ := by
    simp only [stft]
    rw [hpy2, hpy1]
    rfl
  rw [hstft]
  simp only [istft, MatC.T]
  rw [hpy1]
  show (if 1 / 10 ^ 10 < olaNorm 4 1 7 4 then
      olaNum ⟨4, 7, fun f t => dft 4 (stftFrame ⟨6, fun _ => 1⟩ 1 2 1 t) f / (hannSum 2 : ℝ)⟩
          4 4 1 7 false 4 / ((olaNorm 4 1 7 4 : ℝ) : ℂ)
    else olaNum ⟨4, 7, fun f t => dft 4 (stftFrame ⟨6, fun _ => 1⟩ 1 2 1 t) f / (hannSum 2 : ℝ)⟩
          4 4 1 7 false 4) ≠ 1
  set x6 : Vec := ⟨6, fun _ => 1⟩ with hx6def
  set Z : MatC := ⟨4, 7, fun f t => dft 4 (stftFrame x6 1 2 1 t) f / (hannSum 2 : ℝ)⟩ with hZdef
  have hnorm : olaNorm 4 1 7 4 = 3 / 2 := by
    unfold olaNorm
    rw [Finset.sum_range_succ, Finset.sum_range_succ, Finset.sum_range_succ,
      Finset.sum_range_succ, Finset.sum_range_succ, Finset.sum_range_succ,
      Finset.sum_range_succ, Finset.sum_range_zero]
    norm_num [hannW_four_zero, hannW_four_one, hannW_four_two, hannW_four_three]
  have hxs : ∀ t n, n < 4 → istftXsub Z 4 4 false t n = 2 * stftFrame x6 1 2 1 t n := by
    intro t n hn
    rw [istftXsub_mismatch x6 1 2 1 4 (by norm_num) 4 Z (fun f t => rfl) t n hn,
      hannSum_two, hannSum_four]
    push_cast
    ring
  have hf13 : stftFrame x6 1 2 1 1 3 = 0 := by
    unfold stftFrame
    norm_num
  have hf22 : stftFrame x6 1 2 1 2 2 = 0 := by
    unfold stftFrame
    norm_num
  have hf31 : stftFrame x6 1 2 1 3 1 = 1 := by
    unfold stftFrame
    rw [if_pos (by norm_num : 1 < 2)]
    unfold sigExt
    rw [if_neg (by norm_num : ¬ 3 * 1 + 1 < 1), if_pos (by norm_num : 3 * 1 + 1 - 1 < x6.len)]
    rw [hannW_two_one]
    norm_num [hx6def]
  have hf40 : stftFrame x6 1 2 1 4 0 = 0 := by
    unfold stftFrame
    rw [if_pos (by norm_num : 0 < 2), hannW_two_zero]
    norm_num
  have hnum : olaNum Z 4 4 1 7 false 4 = 1 := by
    unfold olaNum
    rw [Finset.sum_range_succ, Finset.sum_range_succ, Finset.sum_range_succ,
      Finset.sum_range_succ, Finset.sum_range_succ, Finset.sum_range_succ,
      Finset.sum_range_succ, Finset.sum_range_zero]
    norm_num
    rw [hxs 1 3 (by norm_num), hxs 2 2 (by norm_num), hxs 3 1 (by norm_num),
      hxs 4 0 (by norm_num), hf13, hf22, hf31, hf40,
      hannW_four_zero, hannW_four_one, hannW_four_two, hannW_four_three]
    push_cast
    ring
  rw [if_pos (by rw [hnorm]; norm_num), hnum, hnorm]
  intro hcontra
  rw [div_eq_one_iff_eq (by push_cast; norm_num : ((3 / 2 : ℝ) : ℂ) ≠ 0)] at hcontra
  have h32 : ((3 / 2 : ℝ) : ℂ) = 3 / 2 := by push_cast; ring
  rw [h32] at hcontra
  norm_num at hcontra

/-- C2 (amended): for every signal of length at least `floor(fsz*fs)` and
nonnegative `fsz*fs`, the spectrogram returned by `stft` has
`floor(fsz*fs)` columns when `two_sided=True` and `floor(fsz*fs)/2 + 1`
columns when `two_sided=False`, where an explicit FFT size replaces the
frame sample count. -/
theorem C2_bin_count (x : Vec) (fs framesz hop : ℚ) (ts : Bool) (fft : Option ℤ)
    (hpos : 0 ≤ framesz * fs)
    (hlen : (⌊framesz * fs⌋).toNat ≤ x.len) :
    (stft x fs framesz hop ts fft).cols =
      if ts then (fft.map Int.toNat).getD (⌊framesz * fs⌋).toNat
      else (fft.map Int.toNat).getD (⌊framesz * fs⌋).toNat / 2 + 1 := by
  simp only [stft, scipyStft, MatC.T]
  rw [pyInt_floor _ hpos]
  rw [show stftNperseg x.len (⌊framesz * fs⌋).toNat = (⌊framesz * fs⌋).toNat from by
    unfold stftNperseg; omega]
  cases ts
  · simp
  · simp

/-- Witness for C2: one-sided spectrogram of a 2-sample signal with a
2-sample frame has 2 frequency columns. -/
theorem C2_bin_count_witness :
    (stft ⟨2, fun _ => 0⟩ 1 2 1 false none).cols =
      if false then (Option.map Int.toNat (none : Option ℤ)).getD (⌊(2 : ℚ) * 1⌋).toNat
      else (Option.map Int.toNat (none : Option ℤ)).getD (⌊(2 : ℚ) * 1⌋).toNat / 2 + 1 :=
  C2_bin_count ⟨2, fun _ => 0⟩ 1 2 1 false none (by norm_num) (by norm_num)

/-- Counterexample for C2 as frozen: with valid parameters (sample rate 1,
frame 10 s, hop 6 s ≤ frame) and a 5-sample signal, the library clamps the
frame length to the signal length, so the two-sided spectrogram has 5
columns, not `floor(fsz*fs) = 10`. -/
theorem C2_counterexample :
    (stft ⟨5, fun _ => 1⟩ 1 10 6 true none).cols ≠ (⌊(10 : ℚ) * 1⌋).toNat := by
  have hpy10 : pyInt ((10 : ℚ) * 1) = 10 := by norm_num [pyInt]
  have h : (stft ⟨5, fun _ => 1⟩ 1 10 6 true none).cols = 5 := by
    simp only [stft, scipyStft, MatC.T]
    rw [hpy10]
    rfl
  rw [h]
  norm_num
  decide

/-- C3: `istft` derives the frame sample count from the spectrogram's
frequency-bin count (`X.shape[1]` when two-sided, `2*(X.shape[1]-1)` when
one-sided), passes `overlap = frame_samples - hop_samples` along, and
applies the inverse Hann-windowed STFT to the frequency-major transpose of
its input. -/
theorem C3_istft_derivation (X : MatC) (fs : ℚ) (rs : Option ℤ) (hop : ℚ) (ts : Bool)
    (fft : Option ℤ) :
    (istft X fs rs hop ts fft).1 =
      scipyIstft X.T (if ts then (X.cols : ℤ) else 2 * ((X.cols : ℤ) - 1))
        ((if ts then (X.cols : ℤ) else 2 * ((X.cols : ℤ) - 1)) - pyInt (hop * fs)) fft
        (!ts) := rfl

/-- C4: `istft` emits its warning exactly when the deprecated `recon_size`
parameter is supplied and differs from the length of the reconstruction,
and the warning message names both the reconstruction length and the
supplied value. -/
theorem C4_warning (X : MatC) (fs : ℚ) (rs : Option ℤ) (hop : ℚ) (ts : Bool) (fft : Option ℤ) :
    ((istft X fs rs hop ts fft).2.isSome ↔
      ∃ r, rs = some r ∧ r ≠ ((istft X fs rs hop ts fft).1.len : ℤ)) ∧
    (∀ r, rs = some r → r ≠ ((istft X fs rs hop ts fft).1.len : ℤ) →
      (istft X fs rs hop ts fft).2 =
        some (reconWarning (istft X fs rs hop ts fft).1.len r)) := by
  simp only [istft]
  cases rs with
  | none => simp
  | some r =>
    by_cases h : r = ((scipyIstft X.T (if ts then (X.cols : ℤ) else 2 * ((X.cols : ℤ) - 1))
        ((if ts then (X.cols : ℤ) else 2 * ((X.cols : ℤ) - 1)) - pyInt (hop * fs)) fft
        (!ts)).len : ℤ)
    · simp [h]
    · simp [h]

/-- Witness for C4: a 1x1 spectrogram reconstructs to an empty signal, and
passing `recon_size = 5` makes `istft` log the mismatch warning naming
both `0` and `5`. -/
theorem C4_warning_witness :
    (istft ⟨1, 1, fun _ _ => 0⟩ 1 (some 5) 1 true none).2 = some (reconWarning 0 5) := by
  have h := (C4_warning ⟨1, 1, fun _ _ => 0⟩ 1 (some 5) 1 true none).2 5 rfl
    (by
      rw [show (istft ⟨1, 1, fun _ _ => 0⟩ 1 (some 5) 1 true none).1.len = 0 from rfl]
      norm_num)
  exact h

/-- C5: the signal returned by `istft` does not depend on the deprecated
`recon_size` parameter at all - it is neither truncated nor padded to the
requested length. -/
theorem C5_recon_independent (X : MatC) (fs hop : ℚ) (ts : Bool) (fft : Option ℤ)
    (rs rs' : Option ℤ) :
    (istft X fs rs hop ts fft).1 = (istft X fs rs' hop ts fft).1 := rfl

/-- C9: `stft` converts seconds to samples by `floor(seconds * fs)` (for
nonnegative products, as Python `int()` truncates toward zero) and passes
`noverlap = framesamp - hopsamp` to the underlying windowed transform. -/
theorem C9_param_conversion (x : Vec) (fs framesz hop : ℚ) (ts : Bool) (fft : Option ℤ)
    (h1 : 0 ≤ framesz * fs) (h2 : 0 ≤ hop * fs) :
    stft x fs framesz hop ts fft =
      (scipyStft x ⌊framesz * fs⌋ (⌊framesz * fs⌋ - ⌊hop * fs⌋) fft (!ts)).T := by
  simp only [stft]
  rw [pyInt_floor _ h1, pyInt_floor _ h2]

theorem MatR.mem_entries (A : MatR) (i j : ℕ) (hi : i < A.rows) (hj : j < A.cols) :
    A.val i j ∈ A.entries := by
  unfold MatR.entries
  exact Finset.mem_image.2 ⟨(i, j),
    Finset.mem_product.2 ⟨Finset.mem_range.2 hi, Finset.mem_range.2 hj⟩, rfl⟩

theorem MatR.entries_nonempty (A : MatR) (hr : 0 < A.rows) (hc : 0 < A.cols) :
    A.entries.Nonempty := ⟨A.val 0 0, A.mem_entries 0 0 hr hc⟩

theorem MatR.entries_elim (A : MatR) (y : ℝ) (hy : y ∈ A.entries) :
    ∃ i j, i < A.rows ∧ j < A.cols ∧ y = A.val i j := by
  unfold MatR.entries at hy
  obtain ⟨p, hp, hval⟩ := Finset.mem_image.1 hy
  obtain ⟨h1, h2⟩ := Finset.mem_product.1 hp
  exact ⟨p.1, p.2, Finset.mem_range.1 h1, Finset.mem_range.1 h2, hval.symm⟩

theorem MatR.minv_eq (A : MatR) (h : A.entries.Nonempty) : A.minv = A.entries.min' h :=
  dif_pos h

theorem MatR.maxv_eq (A : MatR) (h : A.entries.Nonempty) : A.maxv = A.entries.max' h :=
  dif_pos h

theorem MatR.minv_le (A : MatR) (i j : ℕ) (hi : i < A.rows) (hj : j < A.cols) :
    A.minv ≤ A.val i j := by
  rw [A.minv_eq ⟨_, A.mem_entries i j hi hj⟩]
  exact Finset.min'_le _ _ (A.mem_entries i j hi hj)

theorem MatR.le_maxv (A : MatR) (i j : ℕ) (hi : i < A.rows) (hj : j < A.cols) :
    A.val i j ≤ A.maxv := by
  rw [A.maxv_eq ⟨_, A.mem_entries i j hi hj⟩]
  exact Finset.le_max' _ _ (A.mem_entries i j hi hj)

theorem MatR.minv_mem (A : MatR) (h : A.entries.Nonempty) : A.minv ∈ A.entries := by
  rw [A.minv_eq h]
  exact Finset.min'_mem _ _

theorem MatR.maxv_mem (A : MatR) (h : A.entries.Nonempty) : A.maxv ∈ A.entries := by
  rw [A.maxv_eq h]
  exact Finset.max'_mem _ _

theorem MatR.entries_map (A B : MatR) (f : ℝ → ℝ)
    (hrows : B.rows = A.rows) (hcols : B.cols = A.cols)
    (hval : ∀ i j, i < A.rows → j < A.cols → B.val i j = f (A.val i j)) :
    B.entries = A.entries.image f := by
  unfold MatR.entries
  rw [hrows, hcols, Finset.image_image]
  apply Finset.image_congr
  intro p hp
  obtain ⟨h1, h2⟩ := Finset.mem_product.1 hp
  exact hval p.1 p.2 (Finset.mem_range.1 h1) (Finset.mem_range.1 h2)

theorem MatR.minv_map (A B : MatR) (f : ℝ → ℝ) (hf : Monotone f)
    (hr : 0 < A.rows) (hc : 0 < A.cols)
    (hrows : B.rows = A.rows) (hcols : B.cols = A.cols)
    (hval : ∀ i j, i < A.rows → j < A.cols → B.val i j = f (A.val i j)) :
    B.minv = f A.minv := by
  have hne := A.entries_nonempty hr hc
  have himg := A.entries_map B f hrows hcols hval
  have hBne : B.entries.Nonempty := by
    rw [himg]
    exact hne.image f
  rw [B.minv_eq hBne, A.minv_eq hne]
  simp only [himg]
  rw [Finset.min'_image hf]

theorem MatR.maxv_map (A B : MatR) (f : ℝ → ℝ) (hf : Monotone f)
    (hr : 0 < A.rows) (hc : 0 < A.cols)
    (hrows : B.rows = A.rows) (hcols : B.cols = A.cols)
    (hval : ∀ i j, i < A.rows → j < A.cols → B.val i j = f (A.val i j)) :
    B.maxv = f A.maxv := by
  have hne := A.entries_nonempty hr hc
  have himg := A.entries_map B f hrows hcols hval
  have hBne : B.entries.Nonempty := by
    rw [himg]
    exact hne.image f
  rw [B.maxv_eq hBne, A.maxv_eq hne]
  simp only [himg]
  rw [Finset.max'_image hf]

theorem npDiv_smul (s a b : ℝ) (hs : 0 < s) : npDiv (s * a) (s * b) = npDiv a b := by
  unfold npDiv
  by_cases hb : b = 0
  · rw [hb, mul_zero, if_pos rfl, if_pos rfl]
    by_cases ha : a = 0
    · rw [ha, mul_zero]
    · rw [if_neg (mul_ne_zero hs.ne' ha), if_neg ha]
      by_cases hap : 0 < a
      · rw [if_pos (mul_pos hs hap), if_pos hap]
      · rw [if_neg (by rw [mul_pos_iff_of_pos_left hs]; exact hap), if_neg hap]
  · rw [if_neg (mul_ne_zero hs.ne' hb), if_neg hb]
    rw [mul_div_mul_left _ _ hs.ne']

/-- Witness for C9 at concrete parameters. -/
theorem C9_param_conversion_witness :
    stft ⟨1, fun _ => 0⟩ 1 1 1 true none =
      (scipyStft ⟨1, fun _ => 0⟩ ⌊(1 : ℚ) * 1⌋ (⌊(1 : ℚ) * 1⌋ - ⌊(1 : ℚ) * 1⌋) none
        (!true)).T :=
  C9_param_conversion ⟨1, fun _ => 0⟩ 1 1 1 true none (by norm_num) (by norm_num)


/-- C6: `scale_spectrogram` returns the pair (scaled magnitude, unwrapped
phase): the scaled magnitude is `(sqrt(magnitude) - min)/(max - min)`
element-wise with `min`/`max` taken globally over the square-root-compressed
magnitude array, the phase is the element-wise angle unwrapped along the
default (last) axis, and both outputs have the shape of the input. -/
theorem C6_scale (S : MatC) :
    ((scale_spectrogram S).1.rows = S.rows ∧ (scale_spectrogram S).1.cols = S.cols ∧
      (scale_spectrogram S).2.rows = S.rows ∧ (scale_spectrogram S).2.cols = S.cols) ∧
    (∀ i j, i < S.rows → j < S.cols →
      (scale_spectrogram S).1.val i j =
        npDiv (Real.sqrt (Complex.abs (S.val i j)) - (sqrtMag S).minv)
          ((sqrtMag S).maxv - (sqrtMag S).minv)) ∧
    (∀ i j, i < S.rows → j < S.cols →
      (scale_spectrogram S).2.val i j = npUnwrapRow (fun t => Complex.arg (S.val i t)) j) :=
  ⟨⟨rfl, rfl, rfl, rfl⟩, fun _ _ _ _ => rfl, fun _ _ _ _ => rfl⟩

/-- Witness for C6 on a concrete 1x1 spectrogram. -/
theorem C6_scale_witness :
    (scale_spectrogram ⟨1, 1, fun _ _ => Complex.I⟩).1.rows = 1 ∧
    (scale_spectrogram ⟨1, 1, fun _ _ => Complex.I⟩).1.val 0 0 =
      npDiv (Real.sqrt (Complex.abs Complex.I) - (sqrtMag ⟨1, 1, fun _ _ => Complex.I⟩).minv)
        ((sqrtMag ⟨1, 1, fun _ _ => Complex.I⟩).maxv -
          (sqrtMag ⟨1, 1, fun _ _ => Complex.I⟩).minv) :=
  ⟨(C6_scale ⟨1, 1, fun _ _ => Complex.I⟩).1.1,
    (C6_scale ⟨1, 1, fun _ _ => Complex.I⟩).2.1 0 0 (by norm_num) (by norm_num)⟩

/-- C7: on a non-empty spectrogram with non-constant magnitude every entry
of the scaled magnitude is finite, and its global minimum is exactly 0 and
its global maximum exactly 1. -/
theorem C7_minmax (S : MatC) (hr : 0 < S.rows) (hc : 0 < S.cols)
    (hnc : ∃ i j i' j', i < S.rows ∧ j < S.cols ∧ i' < S.rows ∧ j' < S.cols ∧
      Complex.abs (S.val i j) ≠ Complex.abs (S.val i' j')) :
    (∀ i j, i < S.rows → j < S.cols → ((scale_spectrogram S).1.val i j).IsFinite) ∧
    (scale_spectrogram S).1.toR.minv = 0 ∧ (scale_spectrogram S).1.toR.maxv = 1 := by
  obtain ⟨i0, j0, i1, j1, hi0, hj0, hi1, hj1, hne⟩ := hnc
  set G := sqrtMag S with hG
  have hval_ne : G.val i0 j0 ≠ G.val i1 j1 := by
    intro h
    exact hne ((Real.sqrt_inj (Complex.abs.nonneg _) (Complex.abs.nonneg _)).1 h)
  have hlt : G.minv < G.maxv := by
    by_contra hnlt
    have h1 : G.minv ≤ G.val i0 j0 := G.minv_le i0 j0 hi0 hj0
    have h2 : G.val i0 j0 ≤ G.maxv := G.le_maxv i0 j0 hi0 hj0
    have h3 : G.minv ≤ G.val i1 j1 := G.minv_le i1 j1 hi1 hj1
    have h4 : G.val i1 j1 ≤ G.maxv := G.le_maxv i1 j1 hi1 hj1
    have heq : G.maxv ≤ G.minv := not_lt.1 hnlt
    exact hval_ne (by linarith)
  have hdenom : G.maxv - G.minv ≠ 0 := ne_of_gt (sub_pos.2 hlt)
  have hfin : ∀ i j, i < S.rows → j < S.cols →
      (scale_spectrogram S).1.val i j =
        NpVal.fin ((G.val i j - G.minv) / (G.maxv - G.minv)) := by
    intro i j hi hj
    show npDiv (G.val i j - G.minv) (G.maxv - G.minv) = _
    unfold npDiv
    rw [if_neg hdenom]
  have hmono : Monotone fun y : ℝ => (y - G.minv) / (G.maxv - G.minv) := by
    intro a b hab
    exact (div_le_div_iff_of_pos_right (sub_pos.2 hlt)).2 (sub_le_sub_right hab G.minv)
  have hminv := MatR.minv_map G (scale_spectrogram S).1.toR
    (fun y => (y - G.minv) / (G.maxv - G.minv)) hmono hr hc rfl rfl
    (fun i j hi hj => by
      show ((scale_spectrogram S).1.val i j).toReal = _
      rw [hfin i j hi hj]
      rfl)
  have hmaxv := MatR.maxv_map G (scale_spectrogram S).1.toR
    (fun y => (y - G.minv) / (G.maxv - G.minv)) hmono hr hc rfl rfl
    (fun i j hi hj => by
      show ((scale_spectrogram S).1.val i j).toReal = _
      rw [hfin i j hi hj]
      rfl)
  refine ⟨fun i j hi hj => by rw [hfin i j hi hj]; trivial, ?_, ?_⟩
  · rw [hminv]
    simp
  · rw [hmaxv]
    simp only []
    rw [div_self hdenom]

/-- Witness for C7 on a concrete 1x2 spectrogram with entries 0 and 1. -/
theorem C7_minmax_witness :
    ((scale_spectrogram ⟨1, 2, fun _ j => if j = 0 then 0 else 1⟩).1.val 0 0).IsFinite ∧
    (scale_spectrogram ⟨1, 2, fun _ j => if j = 0 then 0 else 1⟩).1.toR.minv = 0 ∧
    (scale_spectrogram ⟨1, 2, fun _ j => if j = 0 then 0 else 1⟩).1.toR.maxv = 1 := by
  have h := C7_minmax ⟨1, 2, fun _ j => if j = 0 then 0 else 1⟩ (by norm_num) (by norm_num)
    ⟨0, 0, 0, 1, by norm_num, by norm_num, by norm_num, by norm_num, by norm_num⟩
  exact ⟨h.1 0 0 (by norm_num) (by norm_num), h.2.1, h.2.2⟩

/-- C8: on a non-empty spectrogram with constant magnitude the global max
of the compressed magnitude equals its global min, so `scale_spectrogram`
divides by zero unguarded and every entry of its magnitude output is the
non-finite IEEE value `nan`; no error is raised (the function is total) and
the case is not special-cased. -/
theorem C8_degenerate (S : MatC) (hr : 0 < S.rows) (hc : 0 < S.cols)
    (hconst : ∀ i j i' j', i < S.rows → j < S.cols → i' < S.rows → j' < S.cols →
      Complex.abs (S.val i j) = Complex.abs (S.val i' j')) :
    (sqrtMag S).maxv - (sqrtMag S).minv = 0 ∧
    (∀ i j, i < S.rows → j < S.cols →
      (scale_spectrogram S).1.val i j = NpVal.nan ∧
      ¬ ((scale_spectrogram S).1.val i j).IsFinite) := by
  set G := sqrtMag S with hG
  have hGval : ∀ i j i' j', i < S.rows → j < S.cols → i' < S.rows → j' < S.cols →
      G.val i j = G.val i' j' := by
    intro i j i' j' hi hj hi' hj'
    show Real.sqrt _ = Real.sqrt _
    rw [hconst i j i' j' hi hj hi' hj']
  have hGne : G.entries.Nonempty := G.entries_nonempty hr hc
  have hall : ∀ y ∈ G.entries, y = G.val 0 0 := by
    intro y hy
    obtain ⟨i, j, hi, hj, rfl⟩ := G.entries_elim y hy
    exact hGval i j 0 0 hi hj hr hc
  have hminv : G.minv = G.val 0 0 := hall _ (G.minv_mem hGne)
  have hmaxv : G.maxv = G.val 0 0 := hall _ (G.maxv_mem hGne)
  have hsub : G.maxv - G.minv = 0 := by rw [hminv, hmaxv, sub_self]
  refine ⟨hsub, fun i j hi hj => ?_⟩
  have hnan : (scale_spectrogram S).1.val i j = NpVal.nan := by
    show npDiv (G.val i j - G.minv) (G.maxv - G.minv) = NpVal.nan
    rw [hminv, hmaxv, hGval i j 0 0 hi hj hr hc, sub_self]
    unfold npDiv
    rw [if_pos rfl, if_pos rfl]
  exact ⟨hnan, by rw [hnan]; exact fun h => h⟩

/-- Witness for C8 on a concrete constant 1x1 spectrogram. -/
theorem C8_degenerate_witness :
    (sqrtMag ⟨1, 1, fun _ _ => Complex.I⟩).maxv - (sqrtMag ⟨1, 1, fun _ _ => Complex.I⟩).minv
        = 0 ∧
      (scale_spectrogram ⟨1, 1, fun _ _ => Complex.I⟩).1.val 0 0 = NpVal.nan := by
  have h := C8_degenerate ⟨1, 1, fun _ _ => Complex.I⟩ (by norm_num) (by norm_num)
    (fun i j i' j' _ _ _ _ => rfl)
  exact ⟨h.1, (h.2 0 0 (by norm_num) (by norm_num)).1⟩

/-- C10: scaling a non-empty spectrogram by a positive real scalar leaves
both outputs of `scale_spectrogram` unchanged (shapes and every in-range
entry of the scaled magnitude and of the unwrapped phase). -/
theorem C10_scale_invariant (S : MatC) (c : ℝ) (hc : 0 < c) (hr : 0 < S.rows)
    (hcol : 0 < S.cols) :
    ((scale_spectrogram (matScale c S)).1.rows = (scale_spectrogram S).1.rows ∧
      (scale_spectrogram (matScale c S)).1.cols = (scale_spectrogram S).1.cols ∧
      (scale_spectrogram (matScale c S)).2.rows = (scale_spectrogram S).2.rows ∧
      (scale_spectrogram (matScale c S)).2.cols = (scale_spectrogram S).2.cols) ∧
    (∀ i j, i < S.rows → j < S.cols →
      (scale_spectrogram (matScale c S)).1.val i j = (scale_spectrogram S).1.val i j) ∧
    (∀ i j, i < S.rows → j < S.cols →
      (scale_spectrogram (matScale c S)).2.val i j = (scale_spectrogram S).2.val i j) := by
  have hsq : 0 < Real.sqrt c := Real.sqrt_pos.2 hc
  set G := sqrtMag S with hGdef
  set G' := sqrtMag (matScale c S) with hG'def
  have hval' : ∀ i j, i < G.rows → j < G.cols → G'.val i j = Real.sqrt c * G.val i j := by
    intro i j _ _
    show Real.sqrt (Complex.abs ((c : ℂ) * S.val i j)) = _
    rw [map_mul, Complex.abs_ofReal, abs_of_pos hc, Real.sqrt_mul hc.le]
    rfl
  have hmono : Monotone fun y : ℝ => Real.sqrt c * y :=
    fun a b hab => mul_le_mul_of_nonneg_left hab hsq.le
  have hminv : G'.minv = Real.sqrt c * G.minv :=
    MatR.minv_map G G' _ hmono hr hcol rfl rfl hval'
  have hmaxv : G'.maxv = Real.sqrt c * G.maxv :=
    MatR.maxv_map G G' _ hmono hr hcol rfl rfl hval'
  refine ⟨⟨rfl, rfl, rfl, rfl⟩, ?_, ?_⟩
  · intro i j hi hj
    show npDiv (G'.val i j - G'.minv) (G'.maxv - G'.minv) =
      npDiv (G.val i j - G.minv) (G.maxv - G.minv)
    rw [hval' i j hi hj, hminv, hmaxv, ← mul_sub, ← mul_sub, npDiv_smul _ _ _ hsq]
  · intro i j hi hj
    show npUnwrapRow (fun t => Complex.arg ((c : ℂ) * S.val i t)) j =
      npUnwrapRow (fun t => Complex.arg (S.val i t)) j
    have harg : (fun t => Complex.arg ((c : ℂ) * S.val i t)) =
        fun t => Complex.arg (S.val i t) :=
      funext fun t => Complex.arg_real_mul _ hc
    rw [harg]

/-- Witness for C10 on a concrete 1x2 spectrogram scaled by 4. -/
theorem C10_scale_invariant_witness :
    (scale_spectrogram (matScale 4 ⟨1, 2, fun _ j => if j = 0 then 0 else Complex.I⟩)).1.val 0 1
        = (scale_spectrogram ⟨1, 2, fun _ j => if j = 0 then 0 else Complex.I⟩).1.val 0 1 ∧
      (scale_spectrogram (matScale 4 ⟨1, 2, fun _ j => if j = 0 then 0 else Complex.I⟩)).2.val 0 1
        = (scale_spectrogram ⟨1, 2, fun _ j => if j = 0 then 0 else Complex.I⟩).2.val 0 1 := by
  have h := C10_scale_invariant ⟨1, 2, fun _ j => if j = 0 then 0 else Complex.I⟩ 4
    (by norm_num) (by norm_num) (by norm_num)
  exact ⟨h.2.1 0 1 (by norm_num) (by norm_num), h.2.2 0 1 (by norm_num) (by norm_num)⟩

end
